import Mathlib

/-!
Shallow embedding of `src/morsecode.c`, a Linux misc-device driver that
converts written text to Morse code: it flashes an LED (modelled here as a
pulse log), decodes the flashed pulses into dot/dash/space symbols, and stores
them in a bounded kfifo queue (capacity 32768) that userspace drains via read.

Modelling conventions:
* The kfifo is a `List Char` (head = oldest element); `kfifo_put` silently
  drops the element when the queue is full, as the C `kfifo_put` does.
* `mutex_lock_interruptible` can fail when the sleeping task receives a
  signal; the outcomes of successive lock acquisitions are modelled by the
  `locks` field: each acquisition consumes one entry (`false` = interrupted),
  and an exhausted list means every further acquisition succeeds.
* LED events (`led_trigger_event`) are appended to `pulses`
  (`true` = LED_FULL, `false` = LED_OFF).  `msleep` only affects wall-clock
  timing and is not modelled.
* C functions returning `0` or `-EFAULT` become `Except Int Unit`, paired
  with the updated global state; `copy_from_user` / `kfifo_to_user` faults
  cannot happen for the in-memory buffers modelled here, so those error
  paths are absent.
* `unsigned short` values are `Nat` below `2 ^ 16`; the C left shift
  `morsecode <<= 1` truncates to 16 bits, hence `(m <<< 1) % 2 ^ 16`.
-/

-- #define QUEUE_SIZE (1 << 15)
def QUEUE_SIZE : Nat := 2 ^ 15

def ONES_IN_A_DOT : Nat := 1
def ONES_IN_A_DASH : Nat := 3
def DOT_SYMBOL : Char := '.'
def DASH_SYMBOL : Char := '-'
def SEPARATOR_SYMBOL : Char := ' '

-- Linux <asm/errno.h>: #define EFAULT 14
def EFAULT : Int := 14

instance exceptDecEq {ε α : Type} [DecidableEq ε] [DecidableEq α] :
    DecidableEq (Except ε α)
  | .ok a, .ok b => decidable_of_iff (a = b) (by simp)
  | .error e, .error f => decidable_of_iff (e = f) (by simp)
  | .ok _, .error _ => isFalse (fun h => Except.noConfusion h)
  | .error _, .ok _ => isFalse (fun h => Except.noConfusion h)

structure DriverState where
  queue : List Char
  locks : List Bool
  pulses : List Bool
deriving DecidableEq

-- static const unsigned short letter_to_morsecode_bits_map[] (A .. Z)
def letter_to_morsecode_bits_map : List Nat :=
  [0xB800, 0xEA80, 0xEBA0, 0xEA00, 0x8000, 0xAE80, 0xEE80, 0xAA00, 0xA000,
   0xBBB8, 0xEB80, 0xBA80, 0xEE00, 0xE800, 0xEEE0, 0xBBA0, 0xEEB8, 0xBA00,
   0xA800, 0xE000, 0xAE00, 0xAB80, 0xBB80, 0xEAE0, 0xEBB8, 0xEEA0]

-- static int queue_lock(void): mutex_lock_interruptible, 0 on success.
-- Here: `true` = acquired, `false` = interrupted; one outcome consumed per call.
def queue_lock (s : DriverState) : Bool × DriverState :=
  match s.locks with
  | [] => (true, s)
  | b :: rest => (b, { s with locks := rest })

-- kfifo_put: appends one element, silently dropped when the fifo is full.
def kfifo_put (c : Char) (q : List Char) : List Char :=
  if q.length < QUEUE_SIZE then q ++ [c] else q

def kfifo_put_state (c : Char) (s : DriverState) : DriverState :=
  { s with queue := kfifo_put c s.queue }

-- led_trigger_event(led_trigger, LED_FULL / LED_OFF), logged as true / false.
def led_trigger_event (led_on : Bool) (s : DriverState) : DriverState :=
  { s with pulses := s.pulses ++ [led_on] }

-- static int put_valid_morsecode_into_queue(const int consecutive_ones_seen)
def put_valid_morsecode_into_queue (consecutive_ones_seen : Nat) (s : DriverState) :
    Except Int Unit × DriverState :=
  if consecutive_ones_seen = ONES_IN_A_DOT ∨ consecutive_ones_seen = ONES_IN_A_DASH then
    match queue_lock s with
    | (false, s1) => ((.error (-EFAULT)), s1)
    | (true, s1) =>
      if consecutive_ones_seen = ONES_IN_A_DOT then
        ((.ok ()), kfifo_put_state DOT_SYMBOL s1)
      else if consecutive_ones_seen = ONES_IN_A_DASH then
        ((.ok ()), kfifo_put_state DASH_SYMBOL s1)
      else ((.ok ()), s1)
  else ((.ok ()), s)

-- The while loop of flash_morsecode.  Each iteration inspects the leftmost of
-- the 16 bits (morsecode >> 15) and shifts left by one with 16-bit truncation.
-- The C loop runs `while (morsecode != 0)`; since morsecode < 2 ^ 16 and each
-- shift discards the most significant bit, it runs at most 16 iterations, so a
-- fuel of 16 (always supplied by `flash_morsecode`) reproduces it exactly.
def flash_loop : Nat → Nat → Nat → DriverState → (Except Int Nat) × DriverState
  | 0, _, consecutive_ones_seen, s => ((.ok consecutive_ones_seen), s)
  | fuel + 1, morsecode, consecutive_ones_seen, s =>
    if morsecode = 0 then ((.ok consecutive_ones_seen), s)
    else
      if morsecode >>> 15 = 1 then
        flash_loop fuel ((morsecode <<< 1) % 2 ^ 16) (consecutive_ones_seen + 1)
          (led_trigger_event true s)
      else
        match put_valid_morsecode_into_queue consecutive_ones_seen s with
        | ((.error e), s1) => ((.error e), s1)
        | ((.ok _), s1) =>
          flash_loop fuel ((morsecode <<< 1) % 2 ^ 16) 0 (led_trigger_event false s1)

-- static int flash_morsecode(unsigned short morsecode)
def flash_morsecode (morsecode : Nat) (s : DriverState) : Except Int Unit × DriverState :=
  match flash_loop 16 morsecode 0 s with
  | ((.error e), s1) => ((.error e), s1)
  | ((.ok consecutive_ones_seen), s1) =>
    match put_valid_morsecode_into_queue consecutive_ones_seen s1 with
    | ((.error e), s2) => ((.error e), s2)
    | ((.ok _), s2) => ((.ok ()), led_trigger_event false s2)

-- The tail of process_morsecode shared by the two letter branches: the
-- inter-letter separator (when not the first character) followed by the flash.
def process_letter_tail (letter_idx : Nat) (is_not_first_char : Bool) (s : DriverState) :
    Except Int Unit × DriverState :=
  if is_not_first_char then
    match queue_lock s with
    | (false, s1) => ((.error (-EFAULT)), s1)
    | (true, s1) =>
      flash_morsecode (letter_to_morsecode_bits_map.getD letter_idx 0)
        (kfifo_put_state SEPARATOR_SYMBOL s1)
  else flash_morsecode (letter_to_morsecode_bits_map.getD letter_idx 0) s

-- static int process_morsecode(char ch, bool is_not_first_char)
-- Character codes: 'a' = 97, 'z' = 122, 'A' = 65, 'Z' = 90.
def process_morsecode (ch : Char) (is_not_first_char : Bool) (s : DriverState) :
    Except Int Unit × DriverState :=
  if 97 ≤ ch.toNat ∧ ch.toNat ≤ 122 then
    process_letter_tail (ch.toNat - 97) is_not_first_char s
  else if 65 ≤ ch.toNat ∧ ch.toNat ≤ 90 then
    process_letter_tail (ch.toNat - 65) is_not_first_char s
  else if ch = ' ' then
    match queue_lock s with
    | (false, s1) => ((.error (-EFAULT)), s1)
    | (true, s1) =>
      ((.ok ()), kfifo_put_state SEPARATOR_SYMBOL (kfifo_put_state SEPARATOR_SYMBOL s1))
  else ((.ok ()), s)

-- static bool is_letter(char ch)
def is_letter (ch : Char) : Bool :=
  (decide (97 ≤ ch.toNat) && decide (ch.toNat ≤ 122)) ||
  (decide (65 ≤ ch.toNat) && decide (ch.toNat ≤ 90))

-- static bool is_morsecode_char(char ch)
def is_morsecode_char (ch : Char) : Bool := is_letter ch || decide (ch = ' ')

-- The scan `while (++peek < count) { if (ch != ' ' && is_letter(ch)) break; }`
-- over the suffix starting at position i: index of the first letter at or
-- after i, or the buffer length when there is none.
def find_letter_loop : List Char → Nat → Nat
  | [], i => i
  | ch :: rest, i =>
    if ch ≠ ' ' ∧ is_letter ch = true then i else find_letter_loop rest (i + 1)

def find_letter_from (buff : List Char) (i : Nat) : Nat :=
  find_letter_loop (buff.drop i) i

-- The while loop of my_write.  Every iteration either exits or moves buff_idx
-- strictly forward (the space branch continues at the peeked letter position),
-- so at most buff.length iterations happen; `my_write` supplies fuel
-- buff.length + 1, which therefore reproduces the C loop exactly.
def my_write_loop (buff : List Char) : Nat → Nat → Bool → DriverState →
    Except Int Unit × DriverState
  | 0, _, _, s => ((.ok ()), s)
  | fuel + 1, buff_idx, has_processed_first_char, s =>
    if h : buff_idx < buff.length then
      if buff[buff_idx] = ' ' then
        -- Forward buffer index to the character after spaces/invalid chars;
        -- ch keeps the value ' ' read at the top of the iteration, and the
        -- next iteration starts at peek_buff_idx = (peek_buff_idx - 1) + 1.
        if buff.length ≤ find_letter_from buff (buff_idx + 1) then ((.ok ()), s)
        else
          if is_morsecode_char buff[buff_idx] then
            match process_morsecode buff[buff_idx] has_processed_first_char s with
            | ((.error e), s1) => ((.error e), s1)
            | ((.ok _), s1) =>
              my_write_loop buff fuel (find_letter_from buff (buff_idx + 1)) true s1
          else
            my_write_loop buff fuel (find_letter_from buff (buff_idx + 1))
              has_processed_first_char s
      else
        if is_morsecode_char buff[buff_idx] then
          match process_morsecode buff[buff_idx] has_processed_first_char s with
          | ((.error e), s1) => ((.error e), s1)
          | ((.ok _), s1) => my_write_loop buff fuel (buff_idx + 1) true s1
        else my_write_loop buff fuel (buff_idx + 1) has_processed_first_char s
    else ((.ok ()), s)

-- static ssize_t my_write(...): the leading trim loop is the same scan as the
-- peek loop (its condition `ch != ' ' && is_letter(ch)` starting at index 0),
-- after which the main loop runs; on success the full count is returned.
def my_write (buff : List Char) (s : DriverState) : Except Int Nat × DriverState :=
  match my_write_loop buff (buff.length + 1) (find_letter_from buff 0) false s with
  | ((.error e), s1) => ((.error e), s1)
  | ((.ok _), s1) => ((.ok buff.length), s1)

-- static ssize_t my_read(...): under the lock, append '\n' when non-empty,
-- then kfifo_to_user copies up to count oldest bytes out.  The returned
-- payload is the copied byte sequence; the C return value is its length.
def my_read (count : Nat) (s : DriverState) : Except Int (List Char) × DriverState :=
  match queue_lock s with
  | (false, s1) => ((.error (-EFAULT)), s1)
  | (true, s1) =>
    if s1.queue.isEmpty then
      ((.ok (s1.queue.take count)), { s1 with queue := s1.queue.drop count })
    else
      ((.ok ((kfifo_put_state '\n' s1).queue.take count)),
       { s1 with queue := (kfifo_put_state '\n' s1).queue.drop count })

/-!
Pure mirrors of the state-passing functions, used to state what a successful
run enqueues and flashes.
-/

-- What put_valid_morsecode_into_queue appends for a run of n consecutive ones.
def flushSym (n : Nat) : List Char :=
  if n = ONES_IN_A_DOT then [DOT_SYMBOL]
  else if n = ONES_IN_A_DASH then [DASH_SYMBOL]
  else []

-- Symbols enqueued by the flash loop, and the trailing run length.
def flashSyms : Nat → Nat → Nat → List Char × Nat
  | 0, _, ones => ([], ones)
  | fuel + 1, m, ones =>
    if m = 0 then ([], ones)
    else if m >>> 15 = 1 then flashSyms fuel ((m <<< 1) % 2 ^ 16) (ones + 1)
    else
      (flushSym ones ++ (flashSyms fuel ((m <<< 1) % 2 ^ 16) 0).1,
       (flashSyms fuel ((m <<< 1) % 2 ^ 16) 0).2)

-- LED events emitted by the flash loop (one per visited bit).
def flashPulses : Nat → Nat → List Bool
  | 0, _ => []
  | fuel + 1, m =>
    if m = 0 then [] else decide (m >>> 15 = 1) :: flashPulses fuel ((m <<< 1) % 2 ^ 16)

-- All symbols a successful flash_morsecode m enqueues (loop plus trailing run).
def bitsSymbols (m : Nat) : List Char :=
  (flashSyms 16 m 0).1 ++ flushSym (flashSyms 16 m 0).2

/-!
Specification-side definitions, phrased from the claims (runs of consecutive
1 bits in MSB-first order; dot for a run of one, dash for a run of three).
-/

-- The 16 bits of m, most significant first.
def bitsOf (m : Nat) : List Bool :=
  (List.range 16).map (fun k => decide ((m >>> (15 - k)) % 2 = 1))

def runsOfOnesAux : List Bool → Nat → List Nat
  | [], acc => if acc = 0 then [] else [acc]
  | b :: bs, acc =>
    if b then runsOfOnesAux bs (acc + 1)
    else if acc = 0 then runsOfOnesAux bs 0
    else acc :: runsOfOnesAux bs 0

-- Lengths of the maximal runs of consecutive `true`s, in order.
def runsOfOnes (bs : List Bool) : List Nat := runsOfOnesAux bs 0

-- The canonical dot/dash sequence of a bit-pattern: one symbol per maximal
-- run of 1 bits, '.' for a run of length 1 and '-' for a run of length 3.
def canonSyms (m : Nat) : List Char :=
  (runsOfOnes (bitsOf m)).map (fun n => if n = 1 then DOT_SYMBOL else DASH_SYMBOL)

-- The table index process_morsecode computes for a letter.
def letterIndex (c : Char) : Nat :=
  if 97 ≤ c.toNat ∧ c.toNat ≤ 122 then c.toNat - 97 else c.toNat - 65

-- The symbols one letter contributes to the queue.
def charSyms (c : Char) : List Char :=
  bitsSymbols (letter_to_morsecode_bits_map.getD (letterIndex c) 0)

-- Join with a separator (List.intercalate, by direct recursion).
def sepJoin (sep : List Char) : List (List Char) → List Char
  | [] => []
  | [w] => w
  | w :: ws => w ++ sep ++ sepJoin sep ws

-- The queue content produced for one word: letters separated by one ' '.
def wordOut (w : List Char) : List Char := sepJoin [' '] (w.map charSyms)

-- The queue content produced for a sequence of words: three ' ' at each word
-- boundary (two from the space character, one inter-letter separator).
def streamOut (words : List (List Char)) : List Char :=
  sepJoin [' ', ' ', ' '] (words.map wordOut)

-- A well-formed word: non-empty and all ASCII letters.
def wfWord (w : List Char) : Prop := w ≠ [] ∧ ∀ c ∈ w, is_letter c = true

instance wfWord.decidable (w : List Char) : Decidable (wfWord w) :=
  decidable_of_iff (w ≠ [] ∧ ∀ c ∈ w, is_letter c = true) Iff.rfl

/-!
### Basic lemmas about the spec-side list functions
-/

theorem sepJoin_cons2 (sep w v : List Char) (vs : List (List Char)) :
    sepJoin sep (w :: v :: vs) = w ++ sep ++ sepJoin sep (v :: vs) := rfl

theorem sepJoin_cons_cons (sep : List Char) (c : Char) (w : List Char)
    (ws : List (List Char)) :
    sepJoin sep ((c :: w) :: ws) = c :: sepJoin sep (w :: ws) := by
  cases ws with
  | nil => rfl
  | cons v vs => simp [sepJoin_cons2]

theorem wordOut_single (c : Char) : wordOut [c] = charSyms c := rfl

theorem wordOut_cons (c d : Char) (w : List Char) :
    wordOut (c :: d :: w) = charSyms c ++ [' '] ++ wordOut (d :: w) := rfl

theorem streamOut_single (w : List Char) : streamOut [w] = wordOut w := rfl

theorem streamOut_cons2 (w v : List Char) (ws : List (List Char)) :
    streamOut (w :: v :: ws) = wordOut w ++ [' ', ' ', ' '] ++ streamOut (v :: ws) := rfl

theorem streamOut_letter_mid (c d : Char) (w : List Char) (ws : List (List Char)) :
    streamOut ((c :: d :: w) :: ws)
      = charSyms c ++ [' '] ++ streamOut ((d :: w) :: ws) := by
  cases ws with
  | nil => simp [streamOut_single, wordOut_cons]
  | cons v vs => simp [streamOut_cons2, wordOut_cons]

theorem streamOut_word_boundary (c : Char) (v : List Char) (ws : List (List Char)) :
    streamOut ([c] :: v :: ws) = charSyms c ++ [' ', ' ', ' '] ++ streamOut (v :: ws) := by
  simp [streamOut_cons2, wordOut_single]

/-!
### find_letter_from
-/

theorem is_letter_ne_space {c : Char} (hc : is_letter c = true) : c ≠ ' ' := by
  intro he
  subst he
  exact absurd hc (by decide)

theorem find_letter_from_here {buff : List Char} {i : Nat} {c : Char} {r : List Char}
    (h : buff.drop i = c :: r) (hc : is_letter c = true) :
    find_letter_from buff i = i := by
  unfold find_letter_from
  rw [h]
  unfold find_letter_loop
  rw [if_pos ⟨is_letter_ne_space hc, hc⟩]

theorem find_letter_loop_none : ∀ (l : List Char) (i : Nat),
    (∀ c ∈ l, is_letter c = false) → find_letter_loop l i = i + l.length := by
  intro l
  induction l with
  | nil => intro i _; simp [find_letter_loop]
  | cons c r ih =>
    intro i h
    unfold find_letter_loop
    rw [if_neg (by simp [h c (by simp)])]
    rw [ih (i + 1) (fun d hd => h d (by simp [hd]))]
    simp
    omega

theorem find_letter_from_none {buff : List Char} {i : Nat}
    (h : ∀ c ∈ buff.drop i, is_letter c = false) :
    find_letter_from buff i = i + (buff.drop i).length := by
  unfold find_letter_from
  exact find_letter_loop_none _ _ h

theorem my_write_loop_at_end (buff : List Char) (fuel idx : Nat) (f : Bool)
    (s : DriverState) (h : buff.length ≤ idx) :
    my_write_loop buff fuel idx f s = ((.ok ()), s) := by
  cases fuel with
  | zero => rfl
  | succ fuel =>
    unfold my_write_loop
    rw [dif_neg (by omega)]

/-!
### Successful runs (all lock acquisitions succeed: `locks = []`)
-/

theorem queue_lock_no_signal (q : List Char) (ps : List Bool) :
    queue_lock ⟨q, [], ps⟩ = (true, ⟨q, [], ps⟩) := rfl

theorem put_valid_ok (n : Nat) (q : List Char) (ps : List Bool)
    (hcap : (n = ONES_IN_A_DOT ∨ n = ONES_IN_A_DASH) → q.length < QUEUE_SIZE) :
    put_valid_morsecode_into_queue n ⟨q, [], ps⟩
      = ((.ok ()), ⟨q ++ flushSym n, [], ps⟩) := by
  by_cases h1 : n = ONES_IN_A_DOT
  · subst h1
    have hq := hcap (Or.inl rfl)
    simp [put_valid_morsecode_into_queue, queue_lock, kfifo_put_state, kfifo_put, flushSym,
      ONES_IN_A_DOT, ONES_IN_A_DASH, hq]
  · by_cases h3 : n = ONES_IN_A_DASH
    · subst h3
      have hq := hcap (Or.inr rfl)
      simp [put_valid_morsecode_into_queue, queue_lock, kfifo_put_state, kfifo_put, flushSym,
        ONES_IN_A_DOT, ONES_IN_A_DASH, hq]
    · simp [put_valid_morsecode_into_queue, flushSym, h1, h3]

theorem led_trigger_event_mk (b : Bool) (q : List Char) (locks ps : List Bool) :
    led_trigger_event b ⟨q, locks, ps⟩ = ⟨q, locks, ps ++ [b]⟩ := rfl

theorem flushSym_length_le (n : Nat) : (flushSym n).length ≤ 1 := by
  unfold flushSym
  split
  · simp
  · split <;> simp

theorem flushSym_length_valid {n : Nat} (hv : n = ONES_IN_A_DOT ∨ n = ONES_IN_A_DASH) :
    (flushSym n).length = 1 := by
  rcases hv with hv | hv <;>
    simp [flushSym, hv, ONES_IN_A_DOT, ONES_IN_A_DASH]

theorem flash_loop_ok : ∀ (fuel m ones : Nat) (q : List Char) (ps : List Bool),
    q.length + (flashSyms fuel m ones).1.length ≤ QUEUE_SIZE →
    flash_loop fuel m ones ⟨q, [], ps⟩
      = ((.ok ((flashSyms fuel m ones).2)),
         ⟨q ++ (flashSyms fuel m ones).1, [], ps ++ flashPulses fuel m⟩) := by
  intro fuel
  induction fuel with
  | zero => intro m ones q ps _; simp [flash_loop, flashSyms, flashPulses]
  | succ fuel ih =>
    intro m ones q ps h
    by_cases hm : m = 0
    · subst hm
      simp [flash_loop, flashSyms, flashPulses]
    · by_cases hbit : m >>> 15 = 1
      · have hsy : flashSyms (fuel + 1) m ones = flashSyms fuel ((m <<< 1) % 2 ^ 16) (ones + 1) := by
          simp [flashSyms, hm, hbit]
        have hpu : flashPulses (fuel + 1) m = true :: flashPulses fuel ((m <<< 1) % 2 ^ 16) := by
          simp [flashPulses, hm, hbit]
        unfold flash_loop
        rw [if_neg hm, if_pos hbit, led_trigger_event_mk]
        rw [ih _ _ _ _ (by rw [← hsy]; exact h)]
        rw [hsy, hpu]
        simp
      · have hsy : flashSyms (fuel + 1) m ones
            = (flushSym ones ++ (flashSyms fuel ((m <<< 1) % 2 ^ 16) 0).1,
               (flashSyms fuel ((m <<< 1) % 2 ^ 16) 0).2) := by
          simp [flashSyms, hm, hbit]
        have hpu : flashPulses (fuel + 1) m = false :: flashPulses fuel ((m <<< 1) % 2 ^ 16) := by
          simp [flashPulses, hm, hbit]
        have hcap1 : (ones = ONES_IN_A_DOT ∨ ones = ONES_IN_A_DASH) → q.length < QUEUE_SIZE := by
          intro hv
          have h1 := flushSym_length_valid hv
          rw [hsy] at h
          simp only [List.length_append] at h
          omega
        unfold flash_loop
        rw [if_neg hm, if_neg hbit]
        simp only [put_valid_ok ones q ps hcap1, led_trigger_event_mk]
        rw [ih _ _ _ _ (by
          rw [hsy] at h
          simp only [List.length_append] at h ⊢
          omega)]
        rw [hsy, hpu]
        simp

theorem flash_morsecode_ok (m : Nat) (q : List Char) (ps : List Bool)
    (h : q.length + (bitsSymbols m).length ≤ QUEUE_SIZE) :
    flash_morsecode m ⟨q, [], ps⟩
      = ((.ok ()), ⟨q ++ bitsSymbols m, [], ps ++ flashPulses 16 m ++ [false]⟩) := by
  have hlen : (bitsSymbols m).length
      = (flashSyms 16 m 0).1.length + (flushSym (flashSyms 16 m 0).2).length := by
    simp [bitsSymbols]
  have hcap0 : q.length + (flashSyms 16 m 0).1.length ≤ QUEUE_SIZE := by omega
  have hcap1 : (flashSyms 16 m 0).2 = ONES_IN_A_DOT ∨ (flashSyms 16 m 0).2 = ONES_IN_A_DASH →
      (q ++ (flashSyms 16 m 0).1).length < QUEUE_SIZE := by
    intro hv
    have h1 := flushSym_length_valid hv
    simp only [List.length_append]
    omega
  simp only [flash_morsecode, flash_loop_ok 16 m 0 q ps hcap0]
  simp only [put_valid_ok _ _ _ hcap1, led_trigger_event_mk]
  simp [bitsSymbols]

theorem kfifo_put_state_mk (c : Char) (q : List Char) (locks ps : List Bool)
    (h : q.length < QUEUE_SIZE) :
    kfifo_put_state c ⟨q, locks, ps⟩ = ⟨q ++ [c], locks, ps⟩ := by
  simp [kfifo_put_state, kfifo_put, h]

theorem is_letter_iff {c : Char} :
    is_letter c = true ↔ (97 ≤ c.toNat ∧ c.toNat ≤ 122) ∨ (65 ≤ c.toNat ∧ c.toNat ≤ 90) := by
  simp [is_letter]

theorem process_letter_tail_ok (idx : Nat) (f : Bool) (q : List Char) (ps : List Bool)
    (h : q.length + ((if f then [' '] else []).length
        + (bitsSymbols (letter_to_morsecode_bits_map.getD idx 0)).length) ≤ QUEUE_SIZE) :
    process_letter_tail idx f ⟨q, [], ps⟩
      = ((.ok ()),
         ⟨q ++ (if f then [' '] else []) ++ bitsSymbols (letter_to_morsecode_bits_map.getD idx 0),
          [], ps ++ flashPulses 16 (letter_to_morsecode_bits_map.getD idx 0) ++ [false]⟩) := by
  cases f with
  | false =>
    have hc : q.length + (bitsSymbols (letter_to_morsecode_bits_map.getD idx 0)).length
        ≤ QUEUE_SIZE := by
      simpa using h
    simp only [process_letter_tail, Bool.false_eq_true, if_false]
    rw [flash_morsecode_ok _ _ _ hc]
    simp
  | true =>
    rw [if_pos rfl] at h
    simp only [List.length_cons, List.length_nil] at h
    have hq : q.length < QUEUE_SIZE := by omega
    simp only [process_letter_tail, if_pos, queue_lock_no_signal, SEPARATOR_SYMBOL]
    rw [kfifo_put_state_mk _ _ _ _ hq]
    rw [flash_morsecode_ok _ _ _ (by rw [List.length_append, List.length_singleton]; omega)]

theorem process_space_ok (f : Bool) (q : List Char) (ps : List Bool)
    (h : q.length + 2 ≤ QUEUE_SIZE) :
    process_morsecode ' ' f ⟨q, [], ps⟩ = ((.ok ()), ⟨q ++ [' ', ' '], [], ps⟩) := by
  have h1 : q.length < QUEUE_SIZE := by omega
  have h2 : (q ++ [' ']).length < QUEUE_SIZE := by simp; omega
  simp only [process_morsecode, SEPARATOR_SYMBOL]
  rw [if_neg (by decide), if_neg (by decide), if_pos (by trivial)]
  simp only [queue_lock_no_signal]
  rw [kfifo_put_state_mk _ _ _ _ h1, kfifo_put_state_mk _ _ _ _ h2]
  simp

theorem process_morsecode_letter (c : Char) (hc : is_letter c = true) (f : Bool)
    (s : DriverState) :
    process_morsecode c f s = process_letter_tail (letterIndex c) f s := by
  rcases is_letter_iff.mp hc with ⟨h1, h2⟩ | ⟨h1, h2⟩
  · simp [process_morsecode, letterIndex, h1, h2]
  · have hn : ¬(97 ≤ c.toNat ∧ c.toNat ≤ 122) := by omega
    simp [process_morsecode, letterIndex, hn, h1, h2]

theorem process_invalid_ok (c : Char) (f : Bool) (s : DriverState)
    (h1 : is_morsecode_char c = false) :
    process_morsecode c f s = ((.ok ()), s) := by
  have hl : is_letter c = false := by
    simp [is_morsecode_char] at h1
    exact h1.1
  have hs : c ≠ ' ' := by
    simp [is_morsecode_char] at h1
    exact h1.2
  have hn1 : ¬(97 ≤ c.toNat ∧ c.toNat ≤ 122) := by
    intro hcon
    exact absurd (is_letter_iff.mpr (Or.inl hcon)) (by simp [hl])
  have hn2 : ¬(65 ≤ c.toNat ∧ c.toNat ≤ 90) := by
    intro hcon
    exact absurd (is_letter_iff.mpr (Or.inr hcon)) (by simp [hl])
  simp [process_morsecode, hn1, hn2, hs]

theorem my_read_nonempty (count : Nat) (q : List Char) (ps : List Bool)
    (hne : q ≠ []) (hcap : q.length < QUEUE_SIZE) :
    my_read count ⟨q, [], ps⟩
      = ((.ok ((q ++ ['\n']).take count)), ⟨(q ++ ['\n']).drop count, [], ps⟩) := by
  simp only [my_read, queue_lock_no_signal]
  rw [if_neg (by simp [hne])]
  rw [show kfifo_put_state '\n' ⟨q, [], ps⟩ = ⟨q ++ ['\n'], [], ps⟩ from
    kfifo_put_state_mk _ _ _ _ hcap]

theorem my_read_empty (count : Nat) (ps : List Bool) :
    my_read count ⟨[], [], ps⟩ = ((.ok []), ⟨[], [], ps⟩) := by
  simp [my_read, queue_lock_no_signal]

theorem my_read_no_room (count : Nat) (q : List Char) (ps : List Bool)
    (hne : q ≠ []) (hfull : ¬q.length < QUEUE_SIZE) :
    my_read count ⟨q, [], ps⟩ = ((.ok (q.take count)), ⟨q.drop count, [], ps⟩) := by
  simp only [my_read, queue_lock_no_signal]
  rw [if_neg (by simp [hne])]
  rw [show kfifo_put_state '\n' ⟨q, [], ps⟩ = ⟨q, [], ps⟩ by
    simp [kfifo_put_state, kfifo_put, hfull]]

theorem my_read_lock_fail (count : Nat) (q : List Char) (ls ps : List Bool) :
    my_read count ⟨q, false :: ls, ps⟩ = ((.error (-EFAULT)), ⟨q, ls, ps⟩) := by
  simp [my_read, queue_lock]

theorem bitsSymbols_eq_canonSyms : ∀ i ∈ List.range 26,
    bitsSymbols (letter_to_morsecode_bits_map.getD i 0)
      = canonSyms (letter_to_morsecode_bits_map.getD i 0) := by
  decide

theorem runsOfOnes_valid : ∀ i ∈ List.range 26,
    ∀ n ∈ runsOfOnes (bitsOf (letter_to_morsecode_bits_map.getD i 0)), n = 1 ∨ n = 3 := by
  decide

theorem bitsSymbols_ne_nil : ∀ i ∈ List.range 26,
    bitsSymbols (letter_to_morsecode_bits_map.getD i 0) ≠ [] := by
  decide

/-!
### Helpers for positional reasoning in the write loop
-/

theorem drop_cons_lt {α : Type} {l : List α} {i : Nat} {c : α} {r : List α}
    (h : l.drop i = c :: r) : i < l.length := by
  by_contra hc
  push_neg at hc
  rw [List.drop_eq_nil_iff.mpr hc] at h
  exact absurd h (by simp)

theorem drop_cons_head {α : Type} {l : List α} {i : Nat} {c : α} {r : List α}
    (h : l.drop i = c :: r) (hlt : i < l.length) : l[i] = c := by
  have h2 := List.drop_eq_getElem_cons hlt
  rw [h] at h2
  injection h2 with h3 h4
  exact h3.symm

theorem drop_cons_tail {α : Type} {l : List α} {i : Nat} {c : α} {r : List α}
    (h : l.drop i = c :: r) : l.drop (i + 1) = r := by
  have h2 := List.tail_drop l i
  rw [h] at h2
  simpa using h2.symm

/-!
### put_valid_morsecode_into_queue: remaining cases
-/

theorem put_valid_invalid (n : Nat) (s : DriverState)
    (h : ¬(n = ONES_IN_A_DOT ∨ n = ONES_IN_A_DASH)) :
    put_valid_morsecode_into_queue n s = ((.ok ()), s) := by
  unfold put_valid_morsecode_into_queue
  rw [if_neg h]

theorem put_valid_lock_fail (n : Nat) (q : List Char) (ls ps : List Bool)
    (h : n = ONES_IN_A_DOT ∨ n = ONES_IN_A_DASH) :
    put_valid_morsecode_into_queue n ⟨q, false :: ls, ps⟩
      = ((.error (-EFAULT)), ⟨q, ls, ps⟩) := by
  unfold put_valid_morsecode_into_queue
  rw [if_pos h]
  rfl

/-!
### Single steps of the write loop
-/

theorem my_write_loop_letter_step (buff : List Char) (fuel idx : Nat) (f : Bool)
    (s : DriverState) {c : Char} {r : List Char}
    (hd : buff.drop idx = c :: r) (hc : is_letter c = true) :
    my_write_loop buff (fuel + 1) idx f s
      = (match process_morsecode c f s with
         | ((.error e), s1) => ((.error e), s1)
         | ((.ok _), s1) => my_write_loop buff fuel (idx + 1) true s1) := by
  have hlt := drop_cons_lt hd
  have hget : buff[idx] = c := drop_cons_head hd hlt
  rw [my_write_loop.eq_2]
  rw [dif_pos hlt]
  simp only [hget]
  rw [if_neg (is_letter_ne_space hc)]
  rw [if_pos (show is_morsecode_char c = true by simp [is_morsecode_char, hc])]

theorem my_write_loop_space_step (buff : List Char) (fuel idx : Nat) (f : Bool)
    (s : DriverState) {r r2 : List Char} {d : Char}
    (hd : buff.drop idx = ' ' :: r) (hd2 : buff.drop (idx + 1) = d :: r2)
    (hdl : is_letter d = true) :
    my_write_loop buff (fuel + 1) idx f s
      = (match process_morsecode ' ' f s with
         | ((.error e), s1) => ((.error e), s1)
         | ((.ok _), s1) => my_write_loop buff fuel (idx + 1) true s1) := by
  have hlt := drop_cons_lt hd
  have hget : buff[idx] = ' ' := drop_cons_head hd hlt
  have hpeek : find_letter_from buff (idx + 1) = idx + 1 := find_letter_from_here hd2 hdl
  have hlt2 := drop_cons_lt hd2
  rw [my_write_loop.eq_2]
  rw [dif_pos hlt]
  simp only [hget, hpeek]
  rw [if_pos (by trivial)]
  rw [if_neg (by omega)]
  rw [if_pos (by decide)]

theorem process_char_ok (c : Char) (hc : is_letter c = true) (f : Bool)
    (q : List Char) (ps : List Bool)
    (h : q.length + ((if f then [' '] else []).length + (charSyms c).length) ≤ QUEUE_SIZE) :
    process_morsecode c f ⟨q, [], ps⟩
      = ((.ok ()),
         ⟨q ++ (if f then [' '] else []) ++ charSyms c, [],
          ps ++ flashPulses 16 (letter_to_morsecode_bits_map.getD (letterIndex c) 0)
            ++ [false]⟩) := by
  rw [process_morsecode_letter c hc]
  exact process_letter_tail_ok (letterIndex c) f q ps h

theorem if_len_eq (f : Bool) : (if f then [' '] else []).length = (if f then 1 else 0) := by
  cases f <;> simp

theorem if_one_true : (if (true : Bool) then (1 : Nat) else 0) = 1 := rfl

theorem my_write_loop_words : ∀ (fuel : Nat) (buff : List Char) (idx : Nat) (f : Bool)
    (q : List Char) (ps : List Bool) (w : List Char) (ws : List (List Char)),
    buff.drop idx = sepJoin [' '] (w :: ws) →
    wfWord w → (∀ u ∈ ws, wfWord u) →
    buff.length ≤ idx + fuel →
    q.length + ((if f then [' '] else []).length + (streamOut (w :: ws)).length) ≤ QUEUE_SIZE →
    ∃ ps2, my_write_loop buff fuel idx f ⟨q, [], ps⟩
      = ((.ok ()), ⟨q ++ (if f then [' '] else []) ++ streamOut (w :: ws), [], ps ++ ps2⟩) := by
  intro fuel
  induction fuel using Nat.strong_induction_on with
  | _ fuel IH =>
  intro buff idx f q ps w ws hdrop hw hws hfuel hcap
  obtain ⟨hwne, hwl⟩ := hw
  cases w with
  | nil => exact absurd rfl hwne
  | cons c w' =>
  rw [sepJoin_cons_cons] at hdrop
  have hc : is_letter c = true := hwl c (by simp)
  have hlt : idx < buff.length := drop_cons_lt hdrop
  have hdrop1 : buff.drop (idx + 1) = sepJoin [' '] (w' :: ws) := drop_cons_tail hdrop
  cases fuel with
  | zero => omega
  | succ fuel1 =>
  have h1 := my_write_loop_letter_step buff fuel1 idx f ⟨q, [], ps⟩ hdrop hc
  cases w' with
  | cons d w'' =>
    have hstream := streamOut_letter_mid c d w'' ws
    have hcapc : q.length + ((if f then [' '] else []).length + (charSyms c).length)
        ≤ QUEUE_SIZE := by
      rw [hstream] at hcap
      simp only [List.length_append, List.length_cons, List.length_nil] at hcap
      omega
    simp only [process_char_ok c hc f q ps hcapc] at h1
    have hwd : wfWord (d :: w'') :=
      ⟨List.cons_ne_nil d w'', fun x hx => hwl x (List.mem_cons_of_mem c hx)⟩
    obtain ⟨psB, hrec⟩ := IH fuel1 (by omega) buff (idx + 1) true
      (q ++ (if f then [' '] else []) ++ charSyms c)
      (ps ++ flashPulses 16 (letter_to_morsecode_bits_map.getD (letterIndex c) 0) ++ [false])
      (d :: w'') ws hdrop1 hwd hws (by omega)
      (by
        rw [hstream] at hcap
        simp only [List.length_append, List.length_cons, List.length_nil] at hcap ⊢
        simp
        omega)
    rw [hrec] at h1
    refine ⟨flashPulses 16 (letter_to_morsecode_bits_map.getD (letterIndex c) 0)
      ++ [false] ++ psB, ?_⟩
    rw [h1]
    simp [hstream, List.append_assoc]
  | nil =>
    cases ws with
    | nil =>
      have hcapc : q.length + ((if f then [' '] else []).length + (charSyms c).length)
          ≤ QUEUE_SIZE := by
        simpa [streamOut_single, wordOut_single] using hcap
      simp only [process_char_ok c hc f q ps hcapc] at h1
      have hnil : buff.drop (idx + 1) = [] := hdrop1
      have hend : buff.length ≤ idx + 1 := List.drop_eq_nil_iff.mp hnil
      rw [my_write_loop_at_end buff fuel1 (idx + 1) true _ hend] at h1
      refine ⟨flashPulses 16 (letter_to_morsecode_bits_map.getD (letterIndex c) 0)
        ++ [false], ?_⟩
      rw [h1]
      simp [streamOut_single, wordOut_single, List.append_assoc]
    | cons u ws' =>
      obtain ⟨hune, hul⟩ := hws u (by simp)
      cases u with
      | nil => exact absurd rfl hune
      | cons e u' =>
      have he : is_letter e = true := hul e (by simp)
      have hdropSp : buff.drop (idx + 1) = ' ' :: sepJoin [' '] ((e :: u') :: ws') := by
        rw [hdrop1]
        rfl
      have hdropE : buff.drop (idx + 1 + 1) = sepJoin [' '] ((e :: u') :: ws') :=
        drop_cons_tail hdropSp
      have hdropE2 : buff.drop (idx + 1 + 1) = e :: sepJoin [' '] (u' :: ws') := by
        rw [hdropE, sepJoin_cons_cons]
      have hlt2 : idx + 1 + 1 < buff.length := drop_cons_lt hdropE2
      have hstream := streamOut_word_boundary c (e :: u') ws'
      have hcapc : q.length + ((if f then [' '] else []).length + (charSyms c).length)
          ≤ QUEUE_SIZE := by
        rw [hstream] at hcap
        simp only [List.length_append, List.length_cons, List.length_nil] at hcap
        omega
      simp only [process_char_ok c hc f q ps hcapc] at h1
      cases fuel1 with
      | zero => omega
      | succ fuel2 =>
      have h2 := my_write_loop_space_step buff fuel2 (idx + 1) true
        ⟨q ++ (if f then [' '] else []) ++ charSyms c, [],
         ps ++ flashPulses 16 (letter_to_morsecode_bits_map.getD (letterIndex c) 0) ++ [false]⟩
        hdropSp hdropE2 he
      simp only [process_space_ok true
        (q ++ (if f then [' '] else []) ++ charSyms c)
        (ps ++ flashPulses 16 (letter_to_morsecode_bits_map.getD (letterIndex c) 0) ++ [false])
        (by
          rw [hstream] at hcap
          simp only [List.length_append, List.length_cons, List.length_nil] at hcap ⊢
          omega)] at h2
      rw [h2] at h1
      obtain ⟨psB, hrec⟩ := IH fuel2 (by omega) buff (idx + 1 + 1) true
        (q ++ (if f then [' '] else []) ++ charSyms c ++ [' ', ' '])
        (ps ++ flashPulses 16 (letter_to_morsecode_bits_map.getD (letterIndex c) 0) ++ [false])
        (e :: u') ws' hdropE ⟨List.cons_ne_nil e u', hul⟩
        (fun v hv => hws v (List.mem_cons_of_mem (e :: u') hv)) (by omega)
        (by
          rw [hstream] at hcap
          simp only [List.length_append, List.length_cons, List.length_nil] at hcap ⊢
          simp
          omega)
      rw [hrec] at h1
      refine ⟨flashPulses 16 (letter_to_morsecode_bits_map.getD (letterIndex c) 0)
        ++ [false] ++ psB, ?_⟩
      rw [h1]
      simp [hstream, List.append_assoc]

theorem my_write_words (words : List (List Char)) (q : List Char) (ps : List Bool)
    (hne : words ≠ []) (hwf : ∀ w ∈ words, wfWord w)
    (hcap : q.length + (streamOut words).length ≤ QUEUE_SIZE) :
    ∃ ps2, my_write (sepJoin [' '] words) ⟨q, [], ps⟩
      = ((.ok (sepJoin [' '] words).length), ⟨q ++ streamOut words, [], ps ++ ps2⟩) := by
  cases words with
  | nil => exact absurd rfl hne
  | cons w ws =>
  obtain ⟨hwne, hwl⟩ := hwf w (by simp)
  cases w with
  | nil => exact absurd rfl hwne
  | cons c w' =>
  have hdrop0 : (sepJoin [' '] ((c :: w') :: ws)).drop 0 = c :: sepJoin [' '] (w' :: ws) := by
    rw [List.drop_zero, sepJoin_cons_cons]
  have hc : is_letter c = true := hwl c (by simp)
  have htrim : find_letter_from (sepJoin [' '] ((c :: w') :: ws)) 0 = 0 :=
    find_letter_from_here hdrop0 hc
  obtain ⟨ps2, hloop⟩ := my_write_loop_words ((sepJoin [' '] ((c :: w') :: ws)).length + 1)
    (sepJoin [' '] ((c :: w') :: ws)) 0 false q ps (c :: w') ws
    (by rw [List.drop_zero]) ⟨hwne, hwl⟩ (fun u hu => hwf u (by simp [hu])) (by omega)
    (by simpa using hcap)
  refine ⟨ps2, ?_⟩
  unfold my_write
  rw [htrim]
  simp only [hloop]
  simp

/-!
### Behaviour when the next lock acquisition is interrupted
-/

theorem flash_loop_pending : ∀ (fuel m ones : Nat) (q : List Char) (ls ps : List Bool),
    (∃ ones2, flash_loop fuel m ones ⟨q, false :: ls, ps⟩
        = ((.ok ones2), ⟨q, false :: ls, ps ++ flashPulses fuel m⟩))
    ∨ (∃ k, k ≤ (flashPulses fuel m).length ∧
        flash_loop fuel m ones ⟨q, false :: ls, ps⟩
          = ((.error (-EFAULT)), ⟨q, ls, ps ++ (flashPulses fuel m).take k⟩)) := by
  intro fuel
  induction fuel with
  | zero => intro m ones q ls ps; left; exact ⟨ones, by simp [flash_loop, flashPulses]⟩
  | succ fuel ih =>
    intro m ones q ls ps
    by_cases hm : m = 0
    · subst hm
      left
      exact ⟨ones, by simp [flash_loop, flashPulses]⟩
    · by_cases hbit : m >>> 15 = 1
      · have hpu : flashPulses (fuel + 1) m = true :: flashPulses fuel ((m <<< 1) % 2 ^ 16) := by
          simp [flashPulses, hm, hbit]
        have hstep : flash_loop (fuel + 1) m ones ⟨q, false :: ls, ps⟩
            = flash_loop fuel ((m <<< 1) % 2 ^ 16) (ones + 1) ⟨q, false :: ls, ps ++ [true]⟩ := by
          rw [flash_loop.eq_2, if_neg hm, if_pos hbit, led_trigger_event_mk]
        rcases ih ((m <<< 1) % 2 ^ 16) (ones + 1) q ls (ps ++ [true]) with ⟨o2, hok⟩ | ⟨k, hk, herr⟩
        · left
          exact ⟨o2, by rw [hstep, hok, hpu]; simp⟩
        · right
          refine ⟨k + 1, by rw [hpu]; simp only [List.length_cons]; omega, ?_⟩
          rw [hstep, herr, hpu]
          simp [List.take_succ_cons]
      · by_cases hv : ones = ONES_IN_A_DOT ∨ ones = ONES_IN_A_DASH
        · right
          refine ⟨0, by simp, ?_⟩
          rw [flash_loop.eq_2, if_neg hm, if_neg hbit]
          simp only [put_valid_lock_fail ones q ls ps hv]
          simp
        · have hpu : flashPulses (fuel + 1) m
              = false :: flashPulses fuel ((m <<< 1) % 2 ^ 16) := by
            simp [flashPulses, hm, hbit]
          have hstep : flash_loop (fuel + 1) m ones ⟨q, false :: ls, ps⟩
              = flash_loop fuel ((m <<< 1) % 2 ^ 16) 0 ⟨q, false :: ls, ps ++ [false]⟩ := by
            rw [flash_loop.eq_2, if_neg hm, if_neg hbit]
            simp only [put_valid_invalid ones _ hv, led_trigger_event_mk]
          rcases ih ((m <<< 1) % 2 ^ 16) 0 q ls (ps ++ [false]) with ⟨o2, hok⟩ | ⟨k, hk, herr⟩
          · left
            exact ⟨o2, by rw [hstep, hok, hpu]; simp⟩
          · right
            refine ⟨k + 1, by rw [hpu]; simp only [List.length_cons]; omega, ?_⟩
            rw [hstep, herr, hpu]
            simp [List.take_succ_cons]

theorem flash_morsecode_pending (m : Nat) (q : List Char) (ls ps : List Bool) :
    (∃ ps2, flash_morsecode m ⟨q, false :: ls, ps⟩
        = ((.ok ()), ⟨q, false :: ls, ps ++ ps2⟩))
    ∨ (∃ k, k ≤ (flashPulses 16 m).length ∧
        flash_morsecode m ⟨q, false :: ls, ps⟩
          = ((.error (-EFAULT)), ⟨q, ls, ps ++ (flashPulses 16 m ++ [false]).take k⟩)) := by
  rcases flash_loop_pending 16 m 0 q ls ps with ⟨o2, hok⟩ | ⟨k, hk, herr⟩
  · by_cases hv : o2 = ONES_IN_A_DOT ∨ o2 = ONES_IN_A_DASH
    · right
      refine ⟨(flashPulses 16 m).length, le_refl _, ?_⟩
      unfold flash_morsecode
      simp only [hok, put_valid_lock_fail o2 q ls _ hv]
      simp [List.take_left]
    · left
      refine ⟨flashPulses 16 m ++ [false], ?_⟩
      unfold flash_morsecode
      simp only [hok, put_valid_invalid o2 _ hv, led_trigger_event_mk]
      simp [List.append_assoc]
  · right
    refine ⟨k, hk, ?_⟩
    unfold flash_morsecode
    simp only [herr]
    rw [List.take_append_of_le_length hk]

theorem process_letter_tail_pending (idx : Nat) (f : Bool) (q : List Char) (ls ps : List Bool) :
    (∃ ps2, process_letter_tail idx f ⟨q, false :: ls, ps⟩
        = ((.ok ()), ⟨q, false :: ls, ps ++ ps2⟩))
    ∨ (∃ ps2, process_letter_tail idx f ⟨q, false :: ls, ps⟩
        = ((.error (-EFAULT)), ⟨q, ls, ps ++ ps2⟩)) := by
  cases f with
  | true =>
    right
    refine ⟨[], ?_⟩
    simp [process_letter_tail, queue_lock]
  | false =>
    simp only [process_letter_tail, Bool.false_eq_true, if_false]
    rcases flash_morsecode_pending (letter_to_morsecode_bits_map.getD idx 0) q ls ps with
      ⟨ps2, hok⟩ | ⟨k, hk, herr⟩
    · exact Or.inl ⟨ps2, hok⟩
    · exact Or.inr ⟨(flashPulses 16 (letter_to_morsecode_bits_map.getD idx 0) ++ [false]).take k,
        herr⟩

theorem process_morsecode_pending (c : Char) (f : Bool) (q : List Char) (ls ps : List Bool) :
    (∃ ps2, process_morsecode c f ⟨q, false :: ls, ps⟩
        = ((.ok ()), ⟨q, false :: ls, ps ++ ps2⟩))
    ∨ (∃ ps2, process_morsecode c f ⟨q, false :: ls, ps⟩
        = ((.error (-EFAULT)), ⟨q, ls, ps ++ ps2⟩)) := by
  by_cases h1 : 97 ≤ c.toNat ∧ c.toNat ≤ 122
  · rw [show process_morsecode c f ⟨q, false :: ls, ps⟩
        = process_letter_tail (c.toNat - 97) f ⟨q, false :: ls, ps⟩ by
      simp [process_morsecode, h1]]
    exact process_letter_tail_pending _ f q ls ps
  · by_cases h2 : 65 ≤ c.toNat ∧ c.toNat ≤ 90
    · rw [show process_morsecode c f ⟨q, false :: ls, ps⟩
          = process_letter_tail (c.toNat - 65) f ⟨q, false :: ls, ps⟩ by
        simp [process_morsecode, h1, h2]]
      exact process_letter_tail_pending _ f q ls ps
    · by_cases h3 : c = ' '
      · right
        refine ⟨[], ?_⟩
        simp [process_morsecode, h1, h2, h3, queue_lock]
      · left
        refine ⟨[], ?_⟩
        simp [process_morsecode, h1, h2, h3]

theorem my_write_loop_pending : ∀ (fuel : Nat) (buff : List Char) (idx : Nat) (f : Bool)
    (q : List Char) (ls ps : List Bool),
    (∃ ps2, my_write_loop buff fuel idx f ⟨q, false :: ls, ps⟩
        = ((.ok ()), ⟨q, false :: ls, ps ++ ps2⟩))
    ∨ (∃ ps2, my_write_loop buff fuel idx f ⟨q, false :: ls, ps⟩
        = ((.error (-EFAULT)), ⟨q, ls, ps ++ ps2⟩)) := by
  intro fuel
  induction fuel with
  | zero =>
    intro buff idx f q ls ps
    left
    exact ⟨[], by simp [my_write_loop]⟩
  | succ fuel ih =>
    intro buff idx f q ls ps
    by_cases hlt : idx < buff.length
    · by_cases hsp : buff[idx] = ' '
      · by_cases hend : buff.length ≤ find_letter_from buff (idx + 1)
        · left
          refine ⟨[], ?_⟩
          rw [my_write_loop.eq_2, dif_pos hlt, if_pos hsp, if_pos hend]
          simp
        · have hmc : is_morsecode_char buff[idx] = true := by
            simp [is_morsecode_char, hsp]
          have hstep : my_write_loop buff (fuel + 1) idx f ⟨q, false :: ls, ps⟩
              = (match process_morsecode buff[idx] f ⟨q, false :: ls, ps⟩ with
                 | ((.error e), s1) => ((.error e), s1)
                 | ((.ok _), s1) =>
                   my_write_loop buff fuel (find_letter_from buff (idx + 1)) true s1) := by
            rw [my_write_loop.eq_2, dif_pos hlt, if_pos hsp, if_neg hend, if_pos hmc]
          rcases process_morsecode_pending buff[idx] f q ls ps with ⟨psA, hA⟩ | ⟨psA, hA⟩
          · rcases ih buff (find_letter_from buff (idx + 1)) true q ls (ps ++ psA) with
              ⟨psB, hB⟩ | ⟨psB, hB⟩
            · left
              exact ⟨psA ++ psB, by rw [hstep]; simp only [hA]; rw [hB]; simp [List.append_assoc]⟩
            · right
              exact ⟨psA ++ psB, by rw [hstep]; simp only [hA]; rw [hB]; simp [List.append_assoc]⟩
          · right
            exact ⟨psA, by rw [hstep]; simp only [hA]⟩
      · by_cases hmc : is_morsecode_char buff[idx] = true
        · have hstep : my_write_loop buff (fuel + 1) idx f ⟨q, false :: ls, ps⟩
              = (match process_morsecode buff[idx] f ⟨q, false :: ls, ps⟩ with
                 | ((.error e), s1) => ((.error e), s1)
                 | ((.ok _), s1) => my_write_loop buff fuel (idx + 1) true s1) := by
            rw [my_write_loop.eq_2, dif_pos hlt, if_neg hsp, if_pos hmc]
          rcases process_morsecode_pending buff[idx] f q ls ps with ⟨psA, hA⟩ | ⟨psA, hA⟩
          · rcases ih buff (idx + 1) true q ls (ps ++ psA) with ⟨psB, hB⟩ | ⟨psB, hB⟩
            · left
              exact ⟨psA ++ psB, by rw [hstep]; simp only [hA]; rw [hB]; simp [List.append_assoc]⟩
            · right
              exact ⟨psA ++ psB, by rw [hstep]; simp only [hA]; rw [hB]; simp [List.append_assoc]⟩
          · right
            exact ⟨psA, by rw [hstep]; simp only [hA]⟩
        · have hstep : my_write_loop buff (fuel + 1) idx f ⟨q, false :: ls, ps⟩
              = my_write_loop buff fuel (idx + 1) f ⟨q, false :: ls, ps⟩ := by
            rw [my_write_loop.eq_2, dif_pos hlt, if_neg hsp, if_neg hmc]
          rcases ih buff (idx + 1) f q ls ps with ⟨psB, hB⟩ | ⟨psB, hB⟩
          · left
            exact ⟨psB, hstep.trans hB⟩
          · right
            exact ⟨psB, hstep.trans hB⟩
    · left
      exact ⟨[], by rw [my_write_loop_at_end buff _ idx f _ (by omega)]; simp⟩

theorem my_write_pending (buff : List Char) (q : List Char) (ls ps : List Bool) :
    (∃ ps2, my_write buff ⟨q, false :: ls, ps⟩
        = ((.ok buff.length), ⟨q, false :: ls, ps ++ ps2⟩))
    ∨ (∃ ps2, my_write buff ⟨q, false :: ls, ps⟩
        = ((.error (-EFAULT)), ⟨q, ls, ps ++ ps2⟩)) := by
  unfold my_write
  rcases my_write_loop_pending (buff.length + 1) buff (find_letter_from buff 0) false q ls ps
    with ⟨psB, hB⟩ | ⟨psB, hB⟩
  · left
    exact ⟨psB, by simp only [hB]⟩
  · right
    exact ⟨psB, by simp only [hB]⟩

theorem my_write_no_letters (buff : List Char) (s : DriverState)
    (h : ∀ c ∈ buff, is_letter c = false) :
    my_write buff s = ((.ok buff.length), s) := by
  have htrim : find_letter_from buff 0 = buff.length := by
    have h0 := @find_letter_from_none buff 0 (by simpa using h)
    simpa using h0
  unfold my_write
  rw [htrim, my_write_loop_at_end buff (buff.length + 1) buff.length false s (le_refl _)]

theorem charSyms_ne_nil (c : Char) (hc : is_letter c = true) : charSyms c ≠ [] := by
  have hidx : letterIndex c < 26 := by
    rcases is_letter_iff.mp hc with ⟨h1, h2⟩ | ⟨h1, h2⟩
    · rw [letterIndex, if_pos ⟨h1, h2⟩]
      omega
    · rw [letterIndex, if_neg (by omega)]
      omega
  have := bitsSymbols_ne_nil (letterIndex c) (List.mem_range.mpr hidx)
  simpa [charSyms] using this

theorem streamOut_ne_nil (words : List (List Char)) (hne : words ≠ [])
    (hwf : ∀ w ∈ words, wfWord w) : streamOut words ≠ [] := by
  cases words with
  | nil => exact absurd rfl hne
  | cons w ws =>
  obtain ⟨hwne, hwl⟩ := hwf w (by simp)
  cases w with
  | nil => exact absurd rfl hwne
  | cons c w' =>
  have hc : is_letter c = true := hwl c (by simp)
  have hcs := charSyms_ne_nil c hc
  cases w' with
  | cons d w'' =>
    rw [streamOut_letter_mid]
    simp [hcs]
  | nil =>
    cases ws with
    | nil =>
      rw [streamOut_single, wordOut_single]
      exact hcs
    | cons u ws' =>
      rw [streamOut_word_boundary]
      simp [hcs]

/-!
### Claim theorems
-/

/-- C2: for every letter A–Z (table index i < 26), `flash_morsecode` applied to
the letter's bit-pattern enqueues exactly the letter's canonical dot/dash
sequence: one symbol per maximal run of consecutive 1 bits in MSB-first order
(all such runs have length 1 or 3); for example R's pattern 0xBA00 has runs of
lengths [1, 3, 1]. -/
theorem C2_theorem : ∀ i, i < 26 →
    (∀ n ∈ runsOfOnes (bitsOf (letter_to_morsecode_bits_map.getD i 0)), n = 1 ∨ n = 3)
    ∧ runsOfOnes (bitsOf 0xBA00) = [1, 3, 1]
    ∧ ∀ (q : List Char) (ps : List Bool),
        q.length + (canonSyms (letter_to_morsecode_bits_map.getD i 0)).length ≤ QUEUE_SIZE →
        flash_morsecode (letter_to_morsecode_bits_map.getD i 0) ⟨q, [], ps⟩
          = ((.ok ()), ⟨q ++ canonSyms (letter_to_morsecode_bits_map.getD i 0), [],
             ps ++ flashPulses 16 (letter_to_morsecode_bits_map.getD i 0) ++ [false]⟩) := by
  intro i hi
  have hbs := bitsSymbols_eq_canonSyms i (List.mem_range.mpr hi)
  refine ⟨runsOfOnes_valid i (List.mem_range.mpr hi), by decide, ?_⟩
  intro q ps hcap
  rw [← hbs] at hcap ⊢
  exact flash_morsecode_ok _ q ps hcap

/-- Witness for C2 at letter R (table index 17, pattern 0xBA00): the flash
enqueues '.', '-', '.' in that order. -/
theorem C2_witness :
    flash_morsecode (letter_to_morsecode_bits_map.getD 17 0) ⟨[], [], []⟩
      = ((.ok ()), ⟨['.', '-', '.'], [],
         [true, false, true, true, true, false, true, false]⟩) := by
  have h := (C2_theorem 17 (by decide)).2.2 [] [] (by decide)
  exact h.trans (by decide)

/-- C3 counterexample: writing "SOS" to an initially empty queue yields the
symbol stream "... --- ..." (letters' dots/dashes adjacent), not the claimed
". . . - - - . . .". -/
theorem C3_counterexample :
    (my_write ("SOS".toList) ⟨[], [], []⟩).2.queue = ("... --- ...").toList
    ∧ (my_read 64 ((my_write ("SOS".toList) ⟨[], [], []⟩).2)).1
        = .ok (("... --- ...").toList ++ ['\n'])
    ∧ ("... --- ...").toList ≠ (". . . - - - . . .").toList
    ∧ ("... --- ...").toList ++ ['\n'] ≠ (". . . - - - . . .").toList ++ ['\n'] := by
  decide

/-- C3 (amended): for the input "SOS" written by one `my_write` call to an
initially empty queue, the drained symbol stream is "... --- ..." followed by
the read's newline: each letter's own dots and dashes are adjacent, with a
single space between letters. -/
theorem C3_amended_theorem :
    (my_write ("SOS".toList) ⟨[], [], []⟩).1 = .ok 3
    ∧ (my_write ("SOS".toList) ⟨[], [], []⟩).2.queue = ("... --- ...").toList
    ∧ (my_read 64 ((my_write ("SOS".toList) ⟨[], [], []⟩).2)).1
        = .ok (("... --- ...").toList ++ ['\n'])
    ∧ (my_read 64 ((my_write ("SOS".toList) ⟨[], [], []⟩).2)).2.queue = [] := by
  decide

/-- C4: the flush of a run of n consecutive ON pulses enqueues exactly one '.'
when n = 1 and exactly one '-' when n = 3 (queue below capacity, lock free);
for every other n it enqueues nothing, in any state, and never reports an
error. -/
theorem C4_theorem (n : Nat) (q : List Char) (ps : List Bool) (s : DriverState) :
    ((n ≠ ONES_IN_A_DOT ∧ n ≠ ONES_IN_A_DASH) →
      put_valid_morsecode_into_queue n s = ((.ok ()), s))
    ∧ (q.length < QUEUE_SIZE →
        put_valid_morsecode_into_queue ONES_IN_A_DOT ⟨q, [], ps⟩
          = ((.ok ()), ⟨q ++ [DOT_SYMBOL], [], ps⟩)
        ∧ put_valid_morsecode_into_queue ONES_IN_A_DASH ⟨q, [], ps⟩
          = ((.ok ()), ⟨q ++ [DASH_SYMBOL], [], ps⟩)) := by
  constructor
  · intro ⟨h1, h3⟩
    exact put_valid_invalid n s (by tauto)
  · intro hq
    exact ⟨put_valid_ok ONES_IN_A_DOT q ps (fun _ => hq),
           put_valid_ok ONES_IN_A_DASH q ps (fun _ => hq)⟩

/-- Witness for C4: a run of 2 is dropped silently, runs of 1 and 3 enqueue
'.' and '-'. -/
theorem C4_witness :
    put_valid_morsecode_into_queue 2 ⟨['-'], [], []⟩ = ((.ok ()), ⟨['-'], [], []⟩)
    ∧ put_valid_morsecode_into_queue 1 ⟨[], [], []⟩ = ((.ok ()), ⟨['.'], [], []⟩)
    ∧ put_valid_morsecode_into_queue 3 ⟨[], [], []⟩ = ((.ok ()), ⟨['-'], [], []⟩) := by
  refine ⟨(C4_theorem 2 [] [] ⟨['-'], [], []⟩).1 (by decide), ?_, ?_⟩
  · exact (((C4_theorem 1 [] [] ⟨[], [], []⟩).2 (by decide)).1).trans (by decide)
  · exact (((C4_theorem 3 [] [] ⟨[], [], []⟩).2 (by decide)).2).trans (by decide)

/-- C5: when the queue is non-empty (and below capacity, locks uncontended),
`my_read` appends exactly one newline behind the queued batch before copying
and returns the copied bytes; when the queue is empty it returns 0 bytes
immediately, adding no newline and leaving the state unchanged. -/
theorem C5_theorem (count : Nat) (q : List Char) (ps : List Bool) :
    (q ≠ [] → q.length < QUEUE_SIZE →
      my_read count ⟨q, [], ps⟩
        = ((.ok ((q ++ ['\n']).take count)), ⟨(q ++ ['\n']).drop count, [], ps⟩))
    ∧ my_read count ⟨[], [], ps⟩ = ((.ok []), ⟨[], [], ps⟩) :=
  ⟨fun h1 h2 => my_read_nonempty count q ps h1 h2, my_read_empty count ps⟩

/-- Witness for C5: reading a one-symbol queue returns ".\n"; reading an
empty queue returns nothing. -/
theorem C5_witness :
    my_read 5 ⟨['.'], [], []⟩ = ((.ok ['.', '\n']), ⟨[], [], []⟩)
    ∧ my_read 5 ⟨[], [], []⟩ = ((.ok []), ⟨[], [], []⟩) := by
  have h := C5_theorem 5 ['.'] []
  exact ⟨(h.1 (by decide) (by decide)).trans (by decide), h.2⟩

/-- C8: a buffer with no ASCII letter (empty, or only spaces / invalid bytes)
makes `my_write` enqueue nothing — the whole driver state is unchanged — and a
subsequent `my_read` of the (still empty) queue returns 0 bytes. -/
theorem C8_theorem (buff : List Char) (s : DriverState) (ps : List Bool) (count : Nat)
    (h : ∀ c ∈ buff, is_letter c = false) :
    my_write buff s = ((.ok buff.length), s)
    ∧ my_read count ⟨[], [], ps⟩ = ((.ok []), ⟨[], [], ps⟩) :=
  ⟨my_write_no_letters buff s h, my_read_empty count ps⟩

/-- Witness for C8 on the buffer " ! " (spaces and an invalid byte). -/
theorem C8_witness :
    my_write [' ', '!', ' '] ⟨[], [], [true]⟩ = ((.ok 3), ⟨[], [], [true]⟩)
    ∧ my_read 7 ⟨[], [], [true]⟩ = ((.ok []), ⟨[], [], [true]⟩) :=
  C8_theorem [' ', '!', ' '] ⟨[], [], [true]⟩ [true] 7 (by decide)

/-- C9: processing a lowercase letter is identical to processing the
corresponding uppercase letter: `process_morsecode` computes the same table
index for both, so the states (queue symbols and pulse log) and results agree
exactly. -/
theorem C9_theorem (cl cu : Char) (h32 : cl.toNat = cu.toNat + 32)
    (hl : 65 ≤ cu.toNat) (hu : cu.toNat ≤ 90) (f : Bool) (s : DriverState) :
    process_morsecode cl f s = process_morsecode cu f s := by
  have h1 : 97 ≤ cl.toNat ∧ cl.toNat ≤ 122 := by omega
  have h2 : ¬(97 ≤ cu.toNat ∧ cu.toNat ≤ 122) := by omega
  have h3 : 65 ≤ cu.toNat ∧ cu.toNat ≤ 90 := ⟨hl, hu⟩
  rw [show process_morsecode cl f s = process_letter_tail (cl.toNat - 97) f s by
    simp [process_morsecode, h1]]
  rw [show process_morsecode cu f s = process_letter_tail (cu.toNat - 65) f s by
    simp [process_morsecode, h2, h3]]
  rw [show cl.toNat - 97 = cu.toNat - 65 by omega]

/-- Witness for C9 at the pair 'r' / 'R'. -/
theorem C9_witness :
    process_morsecode 'r' false ⟨[], [], []⟩ = process_morsecode 'R' false ⟨[], [], []⟩ :=
  C9_theorem 'r' 'R' (by decide) (by decide) (by decide) false ⟨[], [], []⟩

/-- C10: when the queue already holds its full capacity of 32768 symbols,
`my_read` fails to insert the newline marker (the put on a full fifo silently
drops it): the copied batch is exactly the oldest queued symbols, with no
newline added. -/
theorem C10_theorem (count : Nat) (q : List Char) (ps : List Bool)
    (hfull : q.length = QUEUE_SIZE) :
    my_read count ⟨q, [], ps⟩ = ((.ok (q.take count)), ⟨q.drop count, [], ps⟩)
    ∧ ('\n' ∉ q → '\n' ∉ q.take count) := by
  have hne : q ≠ [] := by
    intro he
    rw [he] at hfull
    simp [QUEUE_SIZE] at hfull
  exact ⟨my_read_no_room count q ps hne (by omega),
         fun hnl hmem => hnl (List.mem_of_mem_take hmem)⟩

/-- Witness for C10 on a queue filled to capacity with dots. -/
theorem C10_witness :
    my_read 3 ⟨List.replicate QUEUE_SIZE '.', [], []⟩
      = ((.ok (List.replicate 3 '.')), ⟨List.replicate (QUEUE_SIZE - 3) '.', [], []⟩) := by
  have h := (C10_theorem 3 (List.replicate QUEUE_SIZE '.') [] (by simp)).1
  rw [h]
  have h1 : (3 : Nat) ⊓ QUEUE_SIZE = 3 := by decide
  simp [List.take_replicate, List.drop_replicate, h1]

/-- C1 counterexample: for the well-formed input "hi there" the queue holds
".... ..   - .... . .-. .": dots/dashes within a letter are adjacent
(positions 0 and 1 are both '.' with no separator), and the word boundary is
three consecutive spaces (positions 7, 8, 9), not exactly two. -/
theorem C1_counterexample :
    (my_write ("hi there".toList) ⟨[], [], []⟩).2.queue = (".... ..   - .... . .-. .").toList
    ∧ (my_write ("hi there".toList) ⟨[], [], []⟩).2.queue[7]? = some ' '
    ∧ (my_write ("hi there".toList) ⟨[], [], []⟩).2.queue[8]? = some ' '
    ∧ (my_write ("hi there".toList) ⟨[], [], []⟩).2.queue[9]? = some ' '
    ∧ (my_write ("hi there".toList) ⟨[], [], []⟩).2.queue[0]? = some '.'
    ∧ (my_write ("hi there".toList) ⟨[], [], []⟩).2.queue[1]? = some '.' := by
  decide

/-- C1 (amended): for any input of non-empty letter words joined by single
spaces (no leading/trailing/doubled separators), one `my_write` call on an
empty queue followed by draining yields the stream in which each letter's
dots and dashes are adjacent, consecutive letters of a word are separated by
exactly one space, and each word boundary is rendered as exactly three
consecutive spaces (two from the space character plus the next letter's
inter-letter separator), with the read appending one final newline. -/
theorem C1_theorem (words : List (List Char)) (count : Nat)
    (hne : words ≠ []) (hwf : ∀ w ∈ words, wfWord w)
    (hcap : (streamOut words).length + 1 ≤ QUEUE_SIZE)
    (hcount : (streamOut words).length + 1 ≤ count) :
    ∃ ps2,
      my_write (sepJoin [' '] words) ⟨[], [], []⟩
        = ((.ok (sepJoin [' '] words).length), ⟨streamOut words, [], ps2⟩)
      ∧ my_read count ⟨streamOut words, [], ps2⟩
        = ((.ok (streamOut words ++ ['\n'])), ⟨[], [], ps2⟩) := by
  obtain ⟨ps2, hw⟩ := my_write_words words [] [] hne hwf (by simp; omega)
  simp only [List.nil_append] at hw
  have hsne : streamOut words ≠ [] := streamOut_ne_nil words hne hwf
  refine ⟨ps2, hw, ?_⟩
  rw [my_read_nonempty count (streamOut words) ps2 hsne (by omega)]
  have hlen : (streamOut words ++ ['\n']).length ≤ count := by
    simp only [List.length_append, List.length_cons, List.length_nil]
    omega
  rw [List.take_of_length_le hlen, List.drop_eq_nil_iff.mpr hlen]

/-- Witness for C1 at the two-word input "hi there". -/
theorem C1_witness :
    ∃ ps2,
      my_write (sepJoin [' '] [['h', 'i'], ['t', 'h', 'e', 'r', 'e']]) ⟨[], [], []⟩
        = ((.ok (sepJoin [' '] [['h', 'i'], ['t', 'h', 'e', 'r', 'e']]).length),
           ⟨streamOut [['h', 'i'], ['t', 'h', 'e', 'r', 'e']], [], ps2⟩)
      ∧ my_read 64 ⟨streamOut [['h', 'i'], ['t', 'h', 'e', 'r', 'e']], [], ps2⟩
        = ((.ok (streamOut [['h', 'i'], ['t', 'h', 'e', 'r', 'e']] ++ ['\n'])),
           ⟨[], [], ps2⟩) :=
  C1_theorem [['h', 'i'], ['t', 'h', 'e', 'r', 'e']] 64 (by decide) (by decide)
    (by decide) (by decide)

/-- C6 counterexample: with queue "..", a read of 1 byte returns "." and
leaves ".\n"; the next full read returns ".\n\n" — the remainder arrives with
a duplicated newline, contradicting the claim. -/
theorem C6_counterexample :
    my_read 1 ⟨['.', '.'], [], []⟩ = ((.ok ['.']), ⟨['.', '\n'], [], []⟩)
    ∧ my_read 64 ⟨['.', '\n'], [], []⟩ = ((.ok ['.', '\n', '\n']), ⟨[], [], []⟩)
    ∧ ['.', '\n', '\n'] ≠ ['.', '\n']
    ∧ ['.', '\n', '\n'] ≠ ['.'] := by
  decide

/-- C6 (amended): a `my_read` with a destination smaller than the queued
content copies only as many bytes as fit; a subsequent full read returns the
remaining queued bytes followed by TWO newlines: the first read's undrained
newline marker plus a second marker appended by the subsequent read itself. -/
theorem C6_amended_theorem (q : List Char) (ps : List Bool) (count1 count2 : Nat)
    (hne : q ≠ []) (hcap : q.length + 1 < QUEUE_SIZE)
    (h1 : count1 ≤ q.length) (h2 : q.length + 2 - count1 ≤ count2) :
    ∃ s1, my_read count1 ⟨q, [], ps⟩ = ((.ok ((q ++ ['\n']).take count1)), s1)
      ∧ my_read count2 s1 = ((.ok (q.drop count1 ++ ['\n', '\n'])), ⟨[], [], ps⟩) := by
  have hr1 := my_read_nonempty count1 q ps hne (by omega)
  have hdrop : (q ++ ['\n']).drop count1 = q.drop count1 ++ ['\n'] := by
    rw [List.drop_append_eq_append_drop, Nat.sub_eq_zero_of_le h1, List.drop_zero]
  refine ⟨⟨q.drop count1 ++ ['\n'], [], ps⟩, by rw [hr1, hdrop], ?_⟩
  have hne2 : q.drop count1 ++ ['\n'] ≠ [] := by simp
  have hlen2 : (q.drop count1 ++ ['\n']).length < QUEUE_SIZE := by
    simp only [List.length_append, List.length_drop, List.length_cons, List.length_nil]
    omega
  rw [my_read_nonempty count2 (q.drop count1 ++ ['\n']) ps hne2 hlen2]
  have hlen3 : ((q.drop count1 ++ ['\n']) ++ ['\n']).length ≤ count2 := by
    simp only [List.length_append, List.length_drop, List.length_cons, List.length_nil]
    omega
  rw [List.take_of_length_le hlen3, List.drop_eq_nil_iff.mpr hlen3]
  simp [List.append_assoc]

/-- Witness for C6: queue "..", first read of 1 byte, then a full read. -/
theorem C6_witness :
    ∃ s1, my_read 1 ⟨['.', '.'], [], []⟩
        = ((.ok (((['.', '.'] : List Char) ++ ['\n']).take 1)), s1)
      ∧ my_read 64 s1 = ((.ok ((['.', '.'] : List Char).drop 1 ++ ['\n', '\n'])),
          ⟨[], [], []⟩) :=
  C6_amended_theorem ['.', '.'] [] 1 64 (by decide) (by decide) (by decide) (by decide)

/-- C7: when the interruptible acquisition of the queue lock fails, the
operation in progress aborts at once with the uniform fault code -EFAULT and
consumes exactly one lock attempt (no retry): a failing flush enqueues no
symbol and leaves queue and pulse log untouched; a failing read changes
nothing and adds no newline; a flash whose flush fails leaves the queue
untouched and has emitted only a proper prefix of the letter's full pulse
sequence (none of the remaining pulses, and no trailing LED-off); a write
whose lock acquisition fails returns -EFAULT with the queue unchanged. -/
theorem C7_theorem :
    (∀ (n : Nat) (q : List Char) (ls ps : List Bool),
        n = ONES_IN_A_DOT ∨ n = ONES_IN_A_DASH →
        put_valid_morsecode_into_queue n ⟨q, false :: ls, ps⟩
          = ((.error (-EFAULT)), ⟨q, ls, ps⟩))
    ∧ (∀ (count : Nat) (q : List Char) (ls ps : List Bool),
        my_read count ⟨q, false :: ls, ps⟩ = ((.error (-EFAULT)), ⟨q, ls, ps⟩))
    ∧ (∀ (m : Nat) (q : List Char) (ls ps : List Bool) (r : Except Int Unit)
        (s1 : DriverState),
        flash_morsecode m ⟨q, false :: ls, ps⟩ = (r, s1) → r ≠ .ok () →
        r = .error (-EFAULT) ∧ s1.queue = q ∧ s1.locks = ls ∧
        ∃ k, k < (flashPulses 16 m ++ [false]).length ∧
          s1.pulses = ps ++ (flashPulses 16 m ++ [false]).take k)
    ∧ (∀ (buff q : List Char) (ls ps : List Bool) (r : Except Int Nat)
        (s1 : DriverState),
        my_write buff ⟨q, false :: ls, ps⟩ = (r, s1) → r ≠ .ok buff.length →
        r = .error (-EFAULT) ∧ s1.queue = q ∧ s1.locks = ls) := by
  refine ⟨fun n q ls ps hv => put_valid_lock_fail n q ls ps hv,
          fun count q ls ps => my_read_lock_fail count q ls ps, ?_, ?_⟩
  · intro m q ls ps r s1 heq hr
    rcases flash_morsecode_pending m q ls ps with ⟨ps2, hok⟩ | ⟨k, hk, herr⟩
    · rw [hok, Prod.mk.injEq] at heq
      exact absurd heq.1.symm hr
    · rw [herr, Prod.mk.injEq] at heq
      obtain ⟨h1, h2⟩ := heq
      subst h2
      refine ⟨h1.symm, rfl, rfl, k, ?_, rfl⟩
      simp only [List.length_append, List.length_cons, List.length_nil]
      omega
  · intro buff q ls ps r s1 heq hr
    rcases my_write_pending buff q ls ps with ⟨ps2, hok⟩ | ⟨ps2, herr⟩
    · rw [hok, Prod.mk.injEq] at heq
      exact absurd heq.1.symm hr
    · rw [herr, Prod.mk.injEq] at heq
      obtain ⟨h1, h2⟩ := heq
      subst h2
      exact ⟨h1.symm, rfl, rfl⟩

/-- Witness for C7: a failing flush of a dot run; a failing read; the flash of
letter A (0xB800) aborting at its first flush having emitted only the first ON
pulse; a one-letter write aborting with the queue unchanged. -/
theorem C7_witness :
    put_valid_morsecode_into_queue 1 ⟨['-'], [false], [true]⟩
      = ((.error (-EFAULT)), ⟨['-'], [], [true]⟩)
    ∧ my_read 9 ⟨['.'], [false], []⟩ = ((.error (-EFAULT)), ⟨['.'], [], []⟩)
    ∧ ((Except.error (-EFAULT) : Except Int Unit) = .error (-EFAULT)
        ∧ (⟨[], [], [true]⟩ : DriverState).queue = []
        ∧ (⟨[], [], [true]⟩ : DriverState).locks = []
        ∧ ∃ k, k < (flashPulses 16 0xB800 ++ [false]).length
            ∧ (⟨[], [], [true]⟩ : DriverState).pulses
              = [] ++ (flashPulses 16 0xB800 ++ [false]).take k)
    ∧ ((Except.error (-EFAULT) : Except Int Nat) = .error (-EFAULT)
        ∧ (⟨[], [], [true]⟩ : DriverState).queue = []
        ∧ (⟨[], [], [true]⟩ : DriverState).locks = []) := by
  refine ⟨C7_theorem.1 1 ['-'] [] [true] (Or.inl rfl),
          C7_theorem.2.1 9 ['.'] [] [],
          C7_theorem.2.2.1 0xB800 [] [] [] (.error (-EFAULT)) ⟨[], [], [true]⟩
            (by decide) (by decide), ?_⟩
  exact C7_theorem.2.2.2 ['a'] [] [] [] (.error (-EFAULT)) ⟨[], [], [true]⟩
    (by decide) (by decide)
